import Mathlib

/-!
Verification of the chunking / pipeline / chat core of the repository.

Conventions of the shallow embedding:
- A Python `str` is modelled as `List Char` (a `String` is kept only for
  identifiers that are never sliced, such as `document_id` and chunk ids).
- Python `int` configuration values (`chunk_size`, `chunk_overlap`, `top_k`)
  are modelled as `Int`, since callers may pass negative values.
- Python slicing `s[i:j]` is modelled by `pySlice` with Python's index
  clamping semantics; `s[i:]` by `pySliceFrom`; `range(a, b, st)` by
  `rangeStep` (for `st <= 0` it returns `[]`; in `chunk_text` the step is
  always `>= 1` after the overlap clamp, so this point is never exercised).
- `str.strip()` is modelled by `stripChars` (Unicode whitespace via
  `Char.isWhitespace`), `str.split(sep)` for a non-empty `sep` by
  `splitOnList` (fuel-based structural recursion so that concrete inputs
  evaluate by kernel reduction).
- External collaborators (embedding, indexing, search, completion) are
  passed as function parameters; the orchestrators additionally return an
  explicit trace of collaborator invocations, so that "collaborator is
  never called" is an observable statement.
-/

def isWS (c : Char) : Bool := c.isWhitespace

/-- Python `s.strip()`: drop whitespace from both ends. -/
def stripChars (l : List Char) : List Char :=
  ((l.dropWhile isWS).reverse.dropWhile isWS).reverse

/-- Fuel-based worker for Python `s.split(sep)` (non-empty `sep`):
split on non-overlapping occurrences of `sep`, scanning left to right. -/
def splitGo : Nat → List Char → List Char → List (List Char)
  | _, _, [] => [[]]
  | 0, _, s => [s]
  | fuel + 1, sep, c :: rest =>
      if sep ≠ [] ∧ sep.isPrefixOf (c :: rest) then
        [] :: splitGo fuel sep ((c :: rest).drop sep.length)
      else
        match splitGo fuel sep rest with
        | [] => [[c]]
        | g :: gs => (c :: g) :: gs

/-- Python `s.split(sep)` for non-empty `sep`.  The fuel `s.length` is
sufficient because every recursive call strictly shortens the string. -/
def splitOnList (sep s : List Char) : List (List Char) :=
  splitGo s.length sep s

/-- Python slice-index normalisation: negative indices count from the end,
indices are clamped into `[0, len]`. -/
def pyIdx (len : Nat) (k : Int) : Nat :=
  if k < 0 then ((len : Int) + k).toNat else min k.toNat len

/-- Python `s[i:j]`. -/
def pySlice (s : List Char) (i j : Int) : List Char :=
  (s.take (pyIdx s.length j)).drop (pyIdx s.length i)

/-- Python `s[i:]`. -/
def pySliceFrom (s : List Char) (i : Int) : List Char :=
  s.drop (pyIdx s.length i)

/-- Fuel-based worker for Python `range(start, stop, step)` (`step >= 1`;
for `step <= 0` it yields `[]`, a case `chunk_text` never reaches). -/
def rangeStepGo : Nat → Int → Int → Int → List Int
  | 0, _, _, _ => []
  | fuel + 1, start, stop, step =>
      if 1 ≤ step ∧ start < stop then
        start :: rangeStepGo fuel (start + step) stop step
      else []

/-- Python `range(start, stop, step)`.  The fuel `(stop - start).toNat` is
sufficient because each iteration advances `start` by `step >= 1`. -/
def rangeStep (start stop step : Int) : List Int :=
  rangeStepGo (stop - start).toNat start stop step

/-- Python `f"{n:04d}"` for a non-negative `n`: decimal digits left-padded
with zeros to at least width 4. -/
def pad4 (n : Nat) : String :=
  String.mk (List.replicate (4 - (toString n).length) (Char.ofNat 48)) ++ toString n

/-- The chunk id `f"{document_id}-{chunk_idx:04d}"`. -/
def chunkId (document_id : String) (idx : Nat) : String :=
  document_id ++ "-" ++ pad4 idx

/-- The `Chunk` dataclass of `enrichment/services/chunking.py`. -/
structure Chunk where
  id : String
  content : List Char
  document_id : String
  chunk_index : Nat
  page_number : Option Nat
  section_title : Option String
  metadata : Option (List (String × String))
deriving DecidableEq, Repr

/-- Chunk construction as used at every `chunks.append(...)` site:
content is the accumulated/windowed text stripped, optional fields default
to `None`. -/
def finalizeContent (docId : String) (idx : Nat) (content : List Char) : Chunk :=
  ⟨chunkId docId idx, stripChars content, docId, idx, none, none, none⟩

/-- A default chunk, used only to state concrete facts via `List.getD`. -/
def dummyChunk : Chunk := ⟨"", [], "", 0, none, none, none⟩

/-- Step (a) of the loop body of `chunk_text` (lines 45-60): if the
accumulator is non-empty and appending the paragraph plus one separator
would exceed `chunk_size`, finalize the accumulator and seed the next
accumulator with `current[-chunk_overlap:]` when
`chunk_overlap > 0 and len(current) > chunk_overlap`, else with `""`.
Returns (emitted chunks, new accumulator, new index). -/
def stepAResult (docId : String) (size ovl : Int) (sep para current : List Char)
    (idx : Nat) : List Chunk × List Char × Nat :=
  if current ≠ [] ∧ ((current.length : Int) + (para.length : Int) + (sep.length : Int) > size) then
    ([finalizeContent docId idx current],
     if 0 < ovl ∧ ovl < (current.length : Int) then pySliceFrom current (-ovl) else [],
     idx + 1)
  else
    ([], current, idx)

/-- Steps (b)/(c) of the loop body of `chunk_text` (lines 62-89): an
oversized paragraph (`len(para) > chunk_size`) flushes any non-empty
accumulator, clears it, and emits one chunk per window
`para[i : i + chunk_size]` for `i in range(0, len(para), chunk_size - chunk_overlap)`;
otherwise the paragraph is appended to the accumulator
(`f"{current}{separator}{para}" if current else para`). -/
def handlePara (docId : String) (size ovl : Int) (sep para current : List Char)
    (idx : Nat) : List Chunk × List Char × Nat :=
  if (para.length : Int) > size then
    let flushed : List Chunk := if current = [] then [] else [finalizeContent docId idx current]
    let idx1 := idx + flushed.length
    let ws := rangeStep 0 (para.length : Int) (size - ovl)
    (flushed ++ ws.enum.map (fun p => finalizeContent docId (idx1 + p.1) (pySlice para p.2 (p.2 + size))),
     [], idx1 + ws.length)
  else
    ([], if current = [] then para else current ++ sep ++ para, idx)

/-- One full iteration of the paragraph loop of `chunk_text`. -/
def stepPara (docId : String) (size ovl : Int) (sep para current : List Char)
    (idx : Nat) : List Chunk × List Char × Nat :=
  let r1 := stepAResult docId size ovl sep para current idx
  let r2 := handlePara docId size ovl sep para r1.2.1 r1.2.2
  (r1.1 ++ r2.1, r2.2)

/-- The paragraph loop of `chunk_text`, plus the trailing
`if current.strip(): chunks.append(...)` flush. -/
def processParas (docId : String) (size ovl : Int) (sep : List Char) :
    List (List Char) → List Char → Nat → List Chunk
  | [], current, idx =>
      if (stripChars current).isEmpty then [] else [finalizeContent docId idx current]
  | para :: rest, current, idx =>
      let out := stepPara docId size ovl sep para current idx
      out.1 ++ processParas docId size ovl sep rest out.2.1 out.2.2

/-- `[p.strip() for p in text.split(separator) if p.strip()]`. -/
def paragraphsOf (sep text : List Char) : List (List Char) :=
  ((splitOnList sep text).map stripChars).filter (fun p => !p.isEmpty)

/-- `chunk_text` of `enrichment/services/chunking.py`.  Python defaults are
`chunk_size=1000, chunk_overlap=200, separator="\n\n"`; Lean passes them
explicitly. -/
def chunk_text (text : List Char) (document_id : String)
    (chunk_size chunk_overlap : Int) (separator : List Char) : List Chunk :=
  if (stripChars text).isEmpty then []
  else
    processParas document_id chunk_size (min chunk_overlap (chunk_size - 1)) separator
      (paragraphsOf separator text) [] 0

/-! ### Pipeline orchestrators (`ifwebuildit/pipeline/baseline.py`, `enhanced.py`)

The extraction collaborator result is modelled as the already-converted
`result_dict` (`CUDict`); the embedding and indexing collaborators are
function parameters over an abstract vector type `V`.  Each orchestrator
additionally returns the list of collaborator calls it made, in order, so
that "the embedding/indexing collaborator is never called" is observable. -/

inductive FieldVal where
  | obj : String → FieldVal
  | raw : String → FieldVal
deriving DecidableEq, Repr

/-- One entry of `result_dict["contents"]`: `content.get("markdown", "")`
(a missing key behaves as the empty string downstream) and
`content.get("fields", {})`; `FieldVal.obj v` stands for a dict field
(`field_data.get("value", "")` yields `v`), `FieldVal.raw v` for a non-dict
field used verbatim. -/
structure CUContent where
  markdown : List Char
  fields : List (String × FieldVal)
deriving DecidableEq, Repr

structure CUDict where
  contents : List CUContent
deriving DecidableEq, Repr

/-- Python dict assignment `d[k] = v` on an association list: overwrite the
existing binding or append a new one. -/
def insertAssoc (m : List (String × String)) (k v : String) : List (String × String) :=
  if m.any (fun p => p.1 = k) then m.map (fun p => if p.1 = k then (k, v) else p)
  else m ++ [(k, v)]

/-- `_extract_fields` of `pipeline/enhanced.py`. -/
def extractFields (cu : CUDict) : List (String × String) :=
  cu.contents.foldl
    (fun acc content =>
      content.fields.foldl
        (fun acc2 p =>
          match p.2 with
          | FieldVal.obj v => insertAssoc acc2 p.1 v
          | FieldVal.raw v => insertAssoc acc2 p.1 v)
        acc)
    []

/-- `text_parts = [c.get("markdown", "") for c in ...["contents"]]` followed by
`text = "\n\n".join(p for p in text_parts if p)` (both pipelines). -/
def extractedText (cu : CUDict) : List Char :=
  List.intercalate "\n\n".data
    ((cu.contents.map (fun c => c.markdown)).filter (fun p => !p.isEmpty))

/-- The summary dict returned by `BaselinePipeline.process_document`;
`text_length` is `none` on the empty-text short-circuit (the Python dict has
no such key there). -/
structure PipelineResult where
  document_id : String
  chunks : Nat
  indexed : Nat
  text_length : Option Nat
deriving DecidableEq, Repr

/-- The summary dict returned by `EnhancedPipeline.process_document`. -/
structure EnhancedResult where
  document_id : String
  chunks : Nat
  indexed : Nat
  text_length : Option Nat
  metadata : List (String × String)
deriving DecidableEq, Repr

inductive PipeCall where
  | embedCall
  | indexCall
deriving DecidableEq, Repr

/-- `BaselinePipeline.process_document`, from the point where the extraction
collaborator has produced `result_dict`.  The pipeline imports `chunk_text`
from `ifwebuildit.services.chunking`, a module not present in the sources;
it is taken to be the `enrichment/services/chunking.py` function embedded
above (the pipelines use the `"\n\n"` separator default). -/
def baselineProcess {V : Type} (cu : CUDict) (docId : String) (size ovl : Int)
    (embedF : List (List Char) → List V)
    (indexF : List Chunk → List V → List Bool) : PipelineResult × List PipeCall :=
  let text := extractedText cu
  if (stripChars text).isEmpty then
    (⟨docId, 0, 0, none⟩, [])
  else
    let chunks := chunk_text text docId size ovl "\n\n".data
    let texts := chunks.map (fun c => c.content)
    let embeddings := embedF texts
    let results := indexF chunks embeddings
    let indexed := (results.filter (fun b => b)).length
    (⟨docId, chunks.length, indexed, some text.length⟩,
     [PipeCall.embedCall, PipeCall.indexCall])

/-- `EnhancedPipeline.process_document`, from the point where the extraction
collaborator has produced `result_dict`; the enhanced indexing collaborator
also receives the per-document metadata. -/
def enhancedProcess {V : Type} (cu : CUDict) (docId : String) (size ovl : Int)
    (embedF : List (List Char) → List V)
    (indexF : List Chunk → List V → List (String × String) → List Bool) :
    EnhancedResult × List PipeCall :=
  let text := extractedText cu
  let metadata := extractFields cu
  if (stripChars text).isEmpty then
    (⟨docId, 0, 0, none, metadata⟩, [])
  else
    let chunks := chunk_text text docId size ovl "\n\n".data
    let texts := chunks.map (fun c => c.content)
    let embeddings := embedF texts
    let results := indexF chunks embeddings metadata
    let indexed := (results.filter (fun b => b)).length
    (⟨docId, chunks.length, indexed, some text.length, metadata⟩,
     [PipeCall.embedCall, PipeCall.indexCall])

/-! ### Chat service (`enrichment/services/chat.py`)

A retrieved record is a dict with optional fields; `none` models a missing
key, so `r.get(k, d)` is `Option.getD` and Python truthiness of `r.get(k)`
is "present and non-empty".  The completion collaborator stands for
`client.chat.completions.create(...).choices[0].message.content`, which the
source coalesces with `or ""`. -/

structure SearchRecord where
  id : Option String
  content : Option String
  document_id : Option String
  score : Option Int
  report_title : Option String
  report_number : Option String
  topic_category : Option String
  agencies : Option (List String)
  executive_summary : Option String
  key_findings : Option (List String)
  recommendations : Option (List String)
deriving DecidableEq, Repr

/-- One citation dict as built in `ChatService.chat`. -/
structure Citation where
  document_id : String
  chunk_id : String
  score : Int
  snippet : String
  report_title : String
  report_number : String
  agencies : List String
  topic_category : String
  executive_summary : String
  key_findings : List String
  recommendations : List String
deriving DecidableEq, Repr

def truthyS (o : Option String) : Bool := o.getD "" != ""

def truthyL (o : Option (List String)) : Bool := !(o.getD []).isEmpty

/-- Python `content[:200]`. -/
def take200 (s : String) : String := String.mk (s.data.take 200)

def mkCitation (r : SearchRecord) : Citation :=
  ⟨r.document_id.getD "unknown", r.id.getD "", r.score.getD 0,
   take200 (r.content.getD ""), r.report_title.getD "", r.report_number.getD "",
   r.agencies.getD [], r.topic_category.getD "", r.executive_summary.getD "",
   r.key_findings.getD [], r.recommendations.getD []⟩

/-- One context entry: the `" | "`-joined header line followed by the chunk
content, with the executive summary appended when present. -/
def contextEntry (r : SearchRecord) : String :=
  let headerParts :=
    ["[" ++ r.document_id.getD "unknown" ++ "]"] ++
      (if truthyS r.report_title then ["Report: " ++ r.report_title.getD ""] else []) ++
      (if truthyS r.report_number then ["(" ++ r.report_number.getD "" ++ ")"] else []) ++
      (if truthyS r.topic_category then ["Category: " ++ r.topic_category.getD ""] else []) ++
      (if truthyL r.agencies then
        ["Agencies: " ++ String.intercalate ", " (r.agencies.getD [])] else [])
  let header := String.intercalate " | " headerParts
  let entry := header ++ "\n" ++ r.content.getD ""
  if truthyS r.executive_summary then
    entry ++ "\nExecutive Summary: " ++ r.executive_summary.getD ""
  else entry

def SYSTEM_PROMPT_BASELINE : String :=
  "You are a helpful assistant that answers questions about GAO (Government Accountability Office) cybersecurity reports.\nUse ONLY the provided context to answer. If the context doesn\x27t contain relevant information, say so.\nKeep your answer to 2-3 short paragraphs. Cite the document ID in brackets like [GAO-24-107231] when referencing information."

def SYSTEM_PROMPT_ENHANCED : String :=
  "You are a helpful assistant that answers questions about GAO cybersecurity reports.\nYou have access to enriched metadata: report titles, agencies, topic categories, findings, and recommendations.\n\nRules:\n- Use ONLY the provided context. Be concise — 3-5 bullet points max.\n- Start each bullet with the specific finding or fact, not filler.\n- Cite using the full report title and number, e.g. [GAO-24-107231, \"High-Risk Series...\"].\n- When agencies are mentioned, name them specifically.\n- End with a one-sentence takeaway.\n- Do NOT repeat the question or use filler phrases like \"According to the reports...\"."

structure ReportRef where
  title : String
  number : String
deriving DecidableEq, Repr

structure ChatMetadata where
  reports : List ReportRef
  agencies : List String
  topics : List String
  has_executive_summary : Bool
deriving DecidableEq, Repr

/-- The metadata-aggregation loop state of `ChatService.chat`. -/
structure AggState where
  all_agencies : List String
  all_topics : List String
  reports : List ReportRef
  seen_reports : List String
  has_summary : Bool
deriving DecidableEq, Repr

/-- `if a and a not in acc: acc.append(a)` — the dedup-append step used for
agencies, topics and seen report numbers. -/
def dedupStep (acc : List String) (a : String) : List String :=
  if a ≠ "" ∧ a ∉ acc then acc ++ [a] else acc

def dedupNEfold (acc : List String) (l : List String) : List String :=
  l.foldl dedupStep acc

/-- One iteration of the `for c in citations` aggregation loop. -/
def aggStep (st : AggState) (c : Citation) : AggState :=
  ⟨dedupNEfold st.all_agencies c.agencies,
   dedupStep st.all_topics c.topic_category,
   if c.report_number ≠ "" ∧ c.report_number ∉ st.seen_reports then
     st.reports ++ [⟨c.report_title, c.report_number⟩]
   else st.reports,
   dedupStep st.seen_reports c.report_number,
   st.has_summary || (c.executive_summary != "")⟩

/-- The `metadata` dict built after the aggregation loop. -/
def aggMetadata (citations : List Citation) : ChatMetadata :=
  let st := citations.foldl aggStep ⟨[], [], [], [], false⟩
  ⟨st.reports, st.all_agencies, st.all_topics, st.has_summary⟩

/-- The dict returned by `ChatService.chat`; `metadata` is `none` on the
no-results short-circuit (that return dict has no metadata key). -/
structure ChatResult where
  message : String
  citations : List Citation
  metadata : Option ChatMetadata
deriving DecidableEq, Repr

inductive ChatCall where
  | embedQ
  | searchQ
  | completeQ
deriving DecidableEq, Repr

def NOT_FOUND_MESSAGE : String :=
  "I couldn\x27t find relevant information in the knowledge base."

/-- `ChatService.chat`: embed the query, retrieve, short-circuit on zero
results, otherwise build context and citations, call the completion
collaborator and aggregate metadata.  Collaborators are parameters:
`embedS` (`embedding.embed_single`), `searchF` (`search.search` with
arguments index name, query, vector, top), `completeF` (the LLM completion,
`none` standing for a null `message.content`). -/
def chat {V : Type} (embedS : String → V)
    (searchF : String → String → V → Int → List SearchRecord)
    (completeF : String → String → Option String)
    (message index_name system_prompt : String) (top_k : Int) :
    ChatResult × List ChatCall :=
  let qv := embedS message
  let results := searchF index_name message qv top_k
  if results.isEmpty then
    (⟨NOT_FOUND_MESSAGE, [], none⟩, [ChatCall.embedQ, ChatCall.searchQ])
  else
    let citations := results.map mkCitation
    let context := String.intercalate "\n\n---\n\n" (results.map contextEntry)
    let userContent := "Context:\n" ++ context ++ "\n\nQuestion: " ++ message
    let answer := (completeF system_prompt userContent).getD ""
    (⟨answer, citations, some (aggMetadata citations)⟩,
     [ChatCall.embedQ, ChatCall.searchQ, ChatCall.completeQ])

/-- `ChatService.chat_baseline`. -/
def chat_baseline {V : Type} (embedS : String → V)
    (searchF : String → String → V → Int → List SearchRecord)
    (completeF : String → String → Option String)
    (message index_name : String) : ChatResult × List ChatCall :=
  chat embedS searchF completeF message index_name SYSTEM_PROMPT_BASELINE 5

/-- `ChatService.chat_enhanced`. -/
def chat_enhanced {V : Type} (embedS : String → V)
    (searchF : String → String → V → Int → List SearchRecord)
    (completeF : String → String → Option String)
    (message index_name : String) : ChatResult × List ChatCall :=
  chat embedS searchF completeF message index_name SYSTEM_PROMPT_ENHANCED 5

/-- The indexing discipline of a block of emitted chunks: chunk indices are
the consecutive run starting at `idx`, and every chunk carries the id
`{document_id}-{chunk_index:04d}` and the owning document id. -/
def idxOk (docId : String) (idx : Nat) (l : List Chunk) : Prop :=
  l.map (fun c => c.chunk_index) = List.range' idx l.length ∧
    ∀ c ∈ l, c.id = chunkId docId c.chunk_index ∧ c.document_id = docId

/-! ### Basic lemmas about the string primitives -/

theorem stripChars_length_le (l : List Char) : (stripChars l).length ≤ l.length := by
  unfold stripChars
  calc (((l.dropWhile isWS).reverse.dropWhile isWS).reverse).length
      = ((l.dropWhile isWS).reverse.dropWhile isWS).length := by
        rw [List.length_reverse]
    _ ≤ (l.dropWhile isWS).reverse.length := (List.dropWhile_sublist _).length_le
    _ = (l.dropWhile isWS).length := by rw [List.length_reverse]
    _ ≤ l.length := (List.dropWhile_sublist _).length_le

theorem rangeStepGo_mem_le {fuel : Nat} {start stop step x : Int}
    (hx : x ∈ rangeStepGo fuel start stop step) : start ≤ x := by
  induction fuel generalizing start with
  | zero => simp [rangeStepGo] at hx
  | succ fuel ih =>
    unfold rangeStepGo at hx
    split at hx
    · rcases List.mem_cons.mp hx with h | h
      · omega
      · have := ih h
        omega
    · simp at hx

theorem rangeStepGo_getD {fuel : Nat} {start stop step : Int} {k : Nat}
    (h : k < (rangeStepGo fuel start stop step).length) :
    (rangeStepGo fuel start stop step).getD k 0 = start + k * step := by
  induction fuel generalizing start k with
  | zero => simp [rangeStepGo] at h
  | succ fuel ih =>
    unfold rangeStepGo at h ⊢
    by_cases hc : 1 ≤ step ∧ start < stop
    · rw [if_pos hc] at h ⊢
      cases k with
      | zero => simp
      | succ k =>
        have hk : k < (rangeStepGo fuel (start + step) stop step).length := by
          simpa using h
        have hrec := ih hk
        simp only [List.getD_cons_succ]
        rw [hrec]
        push_cast
        ring
    · rw [if_neg hc] at h
      simp at h

theorem pySlice_window_length_le {s : List Char} {i size : Int}
    (hi : 0 ≤ i) (hs : 0 ≤ size) : ((pySlice s i (i + size)).length : Int) ≤ size := by
  unfold pySlice pyIdx
  rw [List.length_drop, List.length_take]
  have h1 : ¬ (i + size < 0) := by omega
  have h2 : ¬ (i < 0) := by omega
  rw [if_neg h1, if_neg h2]
  omega

theorem pySliceFrom_neg {l : List Char} {ovl : Int}
    (h1 : 0 < ovl) (h2 : ovl < (l.length : Int)) :
    pySliceFrom l (-ovl) = l.drop (l.length - ovl.toNat) ∧
      (pySliceFrom l (-ovl)).length = ovl.toNat := by
  unfold pySliceFrom pyIdx
  rw [if_pos (by omega : -ovl < 0)]
  constructor
  · congr 1
    omega
  · rw [List.length_drop]
    omega

theorem pySlice_self (s : List Char) (i : Int) : pySlice s i i = [] := by
  unfold pySlice
  exact List.drop_eq_nil_of_le (by rw [List.length_take]; exact min_le_left _ _)

theorem head?_dropWhile_not {p : Char → Bool} {l : List Char} {c : Char}
    (h : (l.dropWhile p).head? = some c) : p c = false := by
  induction l with
  | nil => simp at h
  | cons a l ih =>
    rw [List.dropWhile_cons] at h
    split at h
    · exact ih h
    · simp_all

theorem mem_of_getLast?_char {l : List Char} {c : Char} (h : l.getLast? = some c) :
    c ∈ l := by
  induction l with
  | nil => simp at h
  | cons a l ih =>
    cases l with
    | nil =>
      simp_all
    | cons b t =>
      rw [List.getLast?_cons_cons] at h
      exact List.mem_cons_of_mem _ (ih h)

theorem stripChars_getLast_not_ws {l : List Char} (h : stripChars l ≠ []) :
    ∃ c, (stripChars l).getLast? = some c ∧ isWS c = false := by
  have h2 : ((l.dropWhile isWS).reverse.dropWhile isWS) ≠ [] := by
    intro hn
    apply h
    show ((l.dropWhile isWS).reverse.dropWhile isWS).reverse = []
    rw [hn]
    rfl
  obtain ⟨c, t, hct⟩ := List.exists_cons_of_ne_nil h2
  refine ⟨c, ?_, ?_⟩
  · show ((l.dropWhile isWS).reverse.dropWhile isWS).reverse.getLast? = some c
    rw [List.getLast?_reverse, hct]
    rfl
  · exact @head?_dropWhile_not isWS ((l.dropWhile isWS).reverse) c (by rw [hct]; rfl)

theorem stripChars_ne_nil_of_getLast {l : List Char} {c : Char}
    (h : l.getLast? = some c) (hws : isWS c = false) : stripChars l ≠ [] := by
  intro hnil
  have h2 : (l.dropWhile isWS).reverse.dropWhile isWS = [] := by
    have := congrArg List.reverse hnil
    simpa [stripChars] using this
  have hall : ∀ x ∈ l.dropWhile isWS, isWS x = true := by
    intro x hx
    exact List.dropWhile_eq_nil_iff.mp h2 x (by simpa using hx)
  have hcl : c ∈ l := mem_of_getLast?_char h
  rw [← List.takeWhile_append_dropWhile isWS l] at hcl
  rcases List.mem_append.mp hcl with hc | hc
  · exact absurd (List.mem_takeWhile_imp hc) (by simp [hws])
  · exact absurd (hall c hc) (by simp [hws])

/-! ### Length bound for every emitted chunk (claim C1) -/

theorem finalizeContent_length_le (docId : String) (i : Nat) (c : List Char) :
    ((finalizeContent docId i c).content.length : Int) ≤ (c.length : Int) := by
  simpa [finalizeContent] using
    (Nat.cast_le.mpr (stripChars_length_le c) : ((stripChars c).length : Int) ≤ c.length)

theorem window_chunk_length_le {docId : String} {size ovl : Int} {para : List Char}
    (hsize : 0 ≤ size) (m : Nat) :
    ∀ ch ∈ (rangeStep 0 (para.length : Int) (size - ovl)).enum.map
        (fun p => finalizeContent docId (m + p.1) (pySlice para p.2 (p.2 + size))),
      (ch.content.length : Int) ≤ size := by
  intro ch hch
  rcases List.mem_map.mp hch with ⟨p, hp, rfl⟩
  have hp2 : p.2 ∈ rangeStep 0 (para.length : Int) (size - ovl) := by
    have hmap := List.enum_map_snd (rangeStep 0 (para.length : Int) (size - ovl))
    rw [← hmap]
    exact List.mem_map_of_mem Prod.snd hp
  have hge : (0 : Int) ≤ p.2 := rangeStepGo_mem_le hp2
  calc ((finalizeContent docId (m + p.1) (pySlice para p.2 (p.2 + size))).content.length : Int)
      ≤ ((pySlice para p.2 (p.2 + size)).length : Int) := finalizeContent_length_le _ _ _
    _ ≤ size := pySlice_window_length_le hge hsize

theorem forall_mem_ite_nil_singleton {P : Chunk → Prop} {c : Prop} [Decidable c] {x : Chunk}
    (h : P x) : ∀ ch ∈ (if c then ([] : List Chunk) else [x]), P ch := by
  split
  · intro ch hch
    simp at hch
  · intro ch hch
    rcases List.mem_singleton.mp hch with rfl
    exact h

theorem stepAResult_pos {docId : String} {size ovl : Int} {sep para current : List Char} {idx : Nat}
    (hA : current ≠ [] ∧ ((current.length : Int) + (para.length : Int) + (sep.length : Int) > size)) :
    stepAResult docId size ovl sep para current idx =
      ([finalizeContent docId idx current],
       if 0 < ovl ∧ ovl < (current.length : Int) then pySliceFrom current (-ovl) else [],
       idx + 1) := by
  unfold stepAResult
  rw [if_pos hA]

theorem stepAResult_neg {docId : String} {size ovl : Int} {sep para current : List Char} {idx : Nat}
    (hA : ¬(current ≠ [] ∧ ((current.length : Int) + (para.length : Int) + (sep.length : Int) > size))) :
    stepAResult docId size ovl sep para current idx = ([], current, idx) := by
  unfold stepAResult
  rw [if_neg hA]

theorem handlePara_pos {docId : String} {size ovl : Int} {sep para current : List Char} {idx : Nat}
    (hO : (para.length : Int) > size) :
    handlePara docId size ovl sep para current idx =
      ((if current = [] then [] else [finalizeContent docId idx current]) ++
        (rangeStep 0 (para.length : Int) (size - ovl)).enum.map
          (fun p => finalizeContent docId
            ((idx + (if current = [] then ([] : List Chunk) else [finalizeContent docId idx current]).length) + p.1)
            (pySlice para p.2 (p.2 + size))),
       [],
       (idx + (if current = [] then ([] : List Chunk) else [finalizeContent docId idx current]).length) +
         (rangeStep 0 (para.length : Int) (size - ovl)).length) := by
  unfold handlePara
  rw [if_pos hO]

theorem handlePara_neg {docId : String} {size ovl : Int} {sep para current : List Char} {idx : Nat}
    (hO : ¬((para.length : Int) > size)) :
    handlePara docId size ovl sep para current idx =
      ([], if current = [] then para else current ++ sep ++ para, idx) := by
  unfold handlePara
  rw [if_neg hO]

theorem stepPara_eq (docId : String) (size ovl : Int) (sep para current : List Char) (idx : Nat) :
    stepPara docId size ovl sep para current idx =
      ((stepAResult docId size ovl sep para current idx).1 ++
        (handlePara docId size ovl sep para (stepAResult docId size ovl sep para current idx).2.1
          (stepAResult docId size ovl sep para current idx).2.2).1,
       (handlePara docId size ovl sep para (stepAResult docId size ovl sep para current idx).2.1
          (stepAResult docId size ovl sep para current idx).2.2).2) := rfl

theorem handlePara_content_le {docId : String} {size ovl : Int} {sep para cur2 : List Char}
    {idx : Nat} (hsize : 1 ≤ size) (hovl : 0 ≤ ovl)
    (hd : cur2 = [] ∨ (cur2.length : Int) ≤ ovl ∨
      (cur2.length : Int) + (para.length : Int) + (sep.length : Int) ≤ size) :
    (∀ ch ∈ (handlePara docId size ovl sep para cur2 idx).1,
        (ch.content.length : Int) ≤ size + sep.length + ovl) ∧
      (((handlePara docId size ovl sep para cur2 idx).2.1.length : Int) ≤
        size + sep.length + ovl) := by
  have hsep : (0 : Int) ≤ (sep.length : Int) := Int.natCast_nonneg _
  have hcur2 : (cur2.length : Int) ≤ size + sep.length + ovl := by
    rcases hd with h | h | h
    · subst h
      simp
      omega
    · omega
    · omega
  by_cases hO : (para.length : Int) > size
  · rw [handlePara_pos hO]
    refine ⟨?_, by simp; omega⟩
    rw [List.forall_mem_append]
    constructor
    · exact forall_mem_ite_nil_singleton (by
        have := finalizeContent_length_le docId idx cur2
        omega)
    · intro ch hch
      have := @window_chunk_length_le docId size ovl para
        (by omega : (0 : Int) ≤ size)
        (idx + (if cur2 = [] then ([] : List Chunk) else [finalizeContent docId idx cur2]).length)
        ch hch
      omega
  · rw [handlePara_neg hO]
    refine ⟨by intro ch hch; simp at hch, ?_⟩
    split
    · push_cast
      omega
    · rename_i hne
      rw [List.length_append, List.length_append]
      rcases hd with h | h | h
      · exact absurd h hne
      · push_cast
        omega
      · push_cast
        omega

theorem stepPara_content_le {docId : String} {size ovl : Int} {sep para current : List Char}
    {idx : Nat} (hsize : 1 ≤ size) (hovl : 0 ≤ ovl)
    (hcur : (current.length : Int) ≤ size + sep.length + ovl) :
    (∀ ch ∈ (stepPara docId size ovl sep para current idx).1,
        (ch.content.length : Int) ≤ size + sep.length + ovl) ∧
      (((stepPara docId size ovl sep para current idx).2.1.length : Int) ≤
        size + sep.length + ovl) := by
  rw [stepPara_eq]
  by_cases hA : current ≠ [] ∧ ((current.length : Int) + (para.length : Int) + (sep.length : Int) > size)
  · rw [stepAResult_pos hA]
    have hseed : ((if 0 < ovl ∧ ovl < (current.length : Int) then
        pySliceFrom current (-ovl) else []).length : Int) ≤ ovl := by
      split
      · rename_i hcond
        rw [(pySliceFrom_neg hcond.1 hcond.2).2]
        omega
      · simp
        omega
    have hrec := @handlePara_content_le docId size ovl sep para
      (if 0 < ovl ∧ ovl < (current.length : Int) then pySliceFrom current (-ovl) else [])
      (idx + 1) hsize hovl (Or.inr (Or.inl hseed))
    refine ⟨?_, hrec.2⟩
    rw [List.forall_mem_append]
    refine ⟨?_, hrec.1⟩
    intro ch hch
    rcases List.mem_singleton.mp hch with rfl
    have := finalizeContent_length_le docId idx current
    omega
  · rw [stepAResult_neg hA]
    have hd : current = [] ∨ (current.length : Int) ≤ ovl ∨
        (current.length : Int) + (para.length : Int) + (sep.length : Int) ≤ size := by
      by_cases hc : current = []
      · exact Or.inl hc
      · right
        right
        by_contra hgt
        exact hA ⟨hc, by omega⟩
    have hrec := @handlePara_content_le docId size ovl sep para current idx hsize hovl hd
    refine ⟨?_, hrec.2⟩
    rw [List.forall_mem_append]
    exact ⟨by intro ch hch; simp at hch, hrec.1⟩

theorem processParas_nil (docId : String) (size ovl : Int) (sep current : List Char) (idx : Nat) :
    processParas docId size ovl sep [] current idx =
      if (stripChars current).isEmpty then [] else [finalizeContent docId idx current] := rfl

theorem processParas_cons (docId : String) (size ovl : Int) (sep para current : List Char)
    (rest : List (List Char)) (idx : Nat) :
    processParas docId size ovl sep (para :: rest) current idx =
      (stepPara docId size ovl sep para current idx).1 ++
        processParas docId size ovl sep rest
          (stepPara docId size ovl sep para current idx).2.1
          (stepPara docId size ovl sep para current idx).2.2 := rfl

theorem processParas_content_le {docId : String} {size ovl : Int} {sep : List Char}
    (hsize : 1 ≤ size) (hovl : 0 ≤ ovl) :
    ∀ (paras : List (List Char)) (current : List Char) (idx : Nat),
      (current.length : Int) ≤ size + sep.length + ovl →
      ∀ ch ∈ processParas docId size ovl sep paras current idx,
        (ch.content.length : Int) ≤ size + sep.length + ovl := by
  intro paras
  induction paras with
  | nil =>
    intro current idx hcur ch hch
    rw [processParas_nil] at hch
    split at hch
    · simp at hch
    · rcases List.mem_singleton.mp hch with rfl
      have := finalizeContent_length_le docId idx current
      omega
  | cons para rest ih =>
    intro current idx hcur ch hch
    rw [processParas_cons] at hch
    have hstep := @stepPara_content_le docId size ovl sep para current idx hsize hovl hcur
    rcases List.mem_append.mp hch with hch | hch
    · exact hstep.1 ch hch
    · exact ih _ _ hstep.2 ch hch

/-- C1 (counterexample): with `chunk_size = 10`, `chunk_overlap = 5` and
separator `"\n\n"`, the text `"aaaaaaaaaa\n\nbbbbbbbbbb\n\ncc"` produces a
chunk of 17 > 10 characters (the overlap seed plus separator plus the next
paragraph is accumulated without re-checking the budget), refuting
"every chunk's content length is at most chunk_size". -/
theorem c1_chunk_over_size :
    (chunk_text "aaaaaaaaaa\n\nbbbbbbbbbb\n\ncc".data "doc" 10 5 "\n\n".data).map
        (fun c => c.content.length) = [10, 17, 9] ∧
      ¬(∀ ch ∈ chunk_text "aaaaaaaaaa\n\nbbbbbbbbbb\n\ncc".data "doc" 10 5 "\n\n".data,
          ch.content.length ≤ 10) := by
  constructor
  · decide
  · decide

/-- C1 (amended): for `chunk_size >= 1` and `0 <= chunk_overlap < chunk_size`,
every chunk produced by `chunk_text` has content length at most
`chunk_size + len(separator) + chunk_overlap` (the bound `chunk_size` alone
does not hold, see the counterexample). -/
theorem c1_content_length_bound (text : List Char) (docId : String) (size ovl : Int)
    (sep : List Char) (hsize : 1 ≤ size) (h0 : 0 ≤ ovl) (hlt : ovl < size) :
    ∀ ch ∈ chunk_text text docId size ovl sep,
      (ch.content.length : Int) ≤ size + sep.length + ovl := by
  intro ch hch
  unfold chunk_text at hch
  split at hch
  · simp at hch
  · rw [min_eq_left (by omega : ovl ≤ size - 1)] at hch
    exact processParas_content_le hsize h0 (paragraphsOf sep text) [] 0 (by simp; omega) ch hch

/-- Witness for C1 (amended) at a concrete input. -/
theorem c1_content_length_bound_witness :
    (((chunk_text "ab".data "d" 3 1 "\n\n".data).getD 0 dummyChunk).content.length : Int) ≤
      3 + ("\n\n".data.length : Int) + 1 :=
  c1_content_length_bound "ab".data "d" 3 1 "\n\n".data (by decide) (by decide) (by decide)
    ((chunk_text "ab".data "d" 3 1 "\n\n".data).getD 0 dummyChunk) (by decide)

/-! ### Index discipline of emitted chunks (claim C2) -/

theorem range'_one_append (s m n : Nat) :
    List.range' s m ++ List.range' (s + m) n = List.range' s (m + n) := by
  have h := List.range'_append s m n 1
  rw [Nat.one_mul] at h
  rw [h, Nat.add_comm n m]

theorem enumFrom_map_fst_add {α : Type} (l : List α) (m : Nat) :
    ∀ k, (List.enumFrom k l).map (fun p => m + p.1) = List.range' (m + k) l.length := by
  induction l with
  | nil => intro k; rfl
  | cons a l ih =>
    intro k
    simp only [List.enumFrom_cons, List.map_cons, List.length_cons]
    rw [ih (k + 1), List.range'_succ]
    have hmk : m + (k + 1) = m + k + 1 := by omega
    rw [hmk]

theorem idxOk_nil (docId : String) (idx : Nat) : idxOk docId idx [] := by
  constructor
  · rfl
  · intro c hc
    simp at hc

theorem idxOk_singleton (docId : String) (idx : Nat) (content : List Char) :
    idxOk docId idx [finalizeContent docId idx content] := by
  constructor
  · simp [finalizeContent, List.range'_one]
  · intro c hc
    rcases List.mem_singleton.mp hc with rfl
    exact ⟨rfl, rfl⟩

theorem idxOk_append {docId : String} {idx : Nat} {a b : List Chunk}
    (ha : idxOk docId idx a) (hb : idxOk docId (idx + a.length) b) :
    idxOk docId idx (a ++ b) := by
  constructor
  · rw [List.map_append, ha.1, hb.1, List.length_append, range'_one_append]
  · intro c hc
    rcases List.mem_append.mp hc with hc | hc
    · exact ha.2 c hc
    · exact hb.2 c hc

theorem idxOk_ite_flush (docId : String) (idx : Nat) (cur : List Char) {c : Prop}
    [Decidable c] :
    idxOk docId idx (if c then ([] : List Chunk) else [finalizeContent docId idx cur]) := by
  split
  · exact idxOk_nil docId idx
  · exact idxOk_singleton docId idx cur

theorem idxOk_windows (docId : String) (size : Int) (para : List Char) (m : Nat)
    (ws : List Int) :
    idxOk docId m (ws.enum.map
      (fun p => finalizeContent docId (m + p.1) (pySlice para p.2 (p.2 + size)))) := by
  constructor
  · rw [List.map_map]
    have h1 : ((fun c => c.chunk_index) ∘
        (fun p : Nat × Int => finalizeContent docId (m + p.1) (pySlice para p.2 (p.2 + size)))) =
        (fun p : Nat × Int => m + p.1) := rfl
    rw [h1, List.length_map, List.enum_length]
    have h2 := enumFrom_map_fst_add ws m 0
    rw [Nat.add_zero] at h2
    exact h2
  · intro c hc
    rcases List.mem_map.mp hc with ⟨p, _, rfl⟩
    exact ⟨rfl, rfl⟩

theorem stepPara_idxOk (docId : String) (size ovl : Int) (sep para current : List Char)
    (idx : Nat) :
    idxOk docId idx (stepPara docId size ovl sep para current idx).1 ∧
      (stepPara docId size ovl sep para current idx).2.2 =
        idx + (stepPara docId size ovl sep para current idx).1.length := by
  rw [stepPara_eq]
  by_cases hA : current ≠ [] ∧ ((current.length : Int) + (para.length : Int) + (sep.length : Int) > size)
  · rw [stepAResult_pos hA]
    by_cases hO : (para.length : Int) > size
    · rw [handlePara_pos hO]
      constructor
      · apply idxOk_append (idxOk_singleton docId idx current)
        apply idxOk_append
        · exact idxOk_ite_flush docId (idx + 1) _
        · exact idxOk_windows docId size para _ _
      · simp [List.length_append, List.length_map, List.enum_length]
        split
        · simp
          omega
        · simp
          omega
    · rw [handlePara_neg hO]
      constructor
      · apply idxOk_append (idxOk_singleton docId idx current)
        exact idxOk_nil docId (idx + 1)
      · simp
  · rw [stepAResult_neg hA]
    by_cases hO : (para.length : Int) > size
    · rw [handlePara_pos hO]
      constructor
      · apply idxOk_append (idxOk_nil docId idx)
        apply idxOk_append
        · exact idxOk_ite_flush docId idx _
        · exact idxOk_windows docId size para _ _
      · simp [List.length_append, List.length_map, List.enum_length]
        split
        · simp
        · simp
          omega
    · rw [handlePara_neg hO]
      constructor
      · apply idxOk_append (idxOk_nil docId idx)
        exact idxOk_nil docId idx
      · simp

theorem processParas_idxOk (docId : String) (size ovl : Int) (sep : List Char) :
    ∀ (paras : List (List Char)) (current : List Char) (idx : Nat),
      idxOk docId idx (processParas docId size ovl sep paras current idx) := by
  intro paras
  induction paras with
  | nil =>
    intro current idx
    rw [processParas_nil]
    split
    · exact idxOk_nil docId idx
    · exact idxOk_singleton docId idx current
  | cons para rest ih =>
    intro current idx
    rw [processParas_cons]
    have hstep := stepPara_idxOk docId size ovl sep para current idx
    apply idxOk_append hstep.1
    rw [← hstep.2]
    exact ih _ _

/-- C2: for every input, the `chunk_index` fields of the chunks returned by
`chunk_text` are exactly `0, 1, ..., N-1` in output order (no gaps or
duplicates), and each chunk's id is `{document_id}-{chunk_index:04d}`
(zero-padded to at least 4 digits), so the numeric suffix of the id equals
the chunk index; every chunk also carries the owning document id. -/
theorem c2_indices_and_ids (text : List Char) (docId : String) (size ovl : Int)
    (sep : List Char) :
    (chunk_text text docId size ovl sep).map (fun c => c.chunk_index) =
        List.range (chunk_text text docId size ovl sep).length ∧
      ∀ c ∈ chunk_text text docId size ovl sep,
        c.id = docId ++ "-" ++ pad4 c.chunk_index ∧ c.document_id = docId := by
  unfold chunk_text
  by_cases h : (stripChars text).isEmpty
  · rw [if_pos h]
    exact ⟨rfl, by intro c hc; simp at hc⟩
  · rw [if_neg h]
    have hok := processParas_idxOk docId size (min ovl (size - 1)) sep
      (paragraphsOf sep text) [] 0
    rw [List.range_eq_range']
    exact ⟨hok.1, fun c hc => hok.2 c hc⟩

/-- Witness for C2 at a concrete input. -/
theorem c2_indices_and_ids_witness :
    (chunk_text "a\n\nb".data "t" 3 0 "\n\n".data).map (fun c => c.chunk_index) =
        List.range (chunk_text "a\n\nb".data "t" 3 0 "\n\n".data).length ∧
      ((chunk_text "a\n\nb".data "t" 3 0 "\n\n".data).getD 1 dummyChunk).id =
        "t" ++ "-" ++ pad4 ((chunk_text "a\n\nb".data "t" 3 0 "\n\n".data).getD 1 dummyChunk).chunk_index :=
  ⟨(c2_indices_and_ids "a\n\nb".data "t" 3 0 "\n\n".data).1,
    ((c2_indices_and_ids "a\n\nb".data "t" 3 0 "\n\n".data).2
      ((chunk_text "a\n\nb".data "t" 3 0 "\n\n".data).getD 1 dummyChunk) (by decide)).1⟩

/-! ### Overlap clamping (claim C7) and missing chunk_size validation (claim C6) -/

/-- C7: for `chunk_size >= 1` and `chunk_overlap >= chunk_size` the overlap is
clamped to `chunk_size - 1`, the windowing step `chunk_size - clamped_overlap`
is `>= 1` (forward progress), and the whole call behaves exactly as the call
with overlap `chunk_size - 1`; in particular it terminates with a finite chunk
sequence (`chunk_text` is a total function of its inputs). -/
theorem c7_overlap_clamped (text : List Char) (docId : String) (size ovl : Int)
    (sep : List Char) (_hsize : 1 ≤ size) (hovl : size ≤ ovl) :
    min ovl (size - 1) = size - 1 ∧
      1 ≤ size - min ovl (size - 1) ∧
      chunk_text text docId size ovl sep = chunk_text text docId size (size - 1) sep := by
  have hmin : min ovl (size - 1) = size - 1 := min_eq_right (by omega)
  refine ⟨hmin, by omega, ?_⟩
  unfold chunk_text
  rw [hmin, min_self]

/-- Witness for C7 at a concrete input. -/
theorem c7_overlap_clamped_witness :
    min (5 : Int) (3 - 1) = 3 - 1 ∧
      1 ≤ (3 : Int) - min 5 (3 - 1) ∧
      chunk_text "ab".data "d" 3 5 "\n\n".data = chunk_text "ab".data "d" 3 (3 - 1) "\n\n".data :=
  c7_overlap_clamped "ab".data "d" 3 5 "\n\n".data (by decide) (by decide)

theorem paragraphsOf_ne_nil {sep text : List Char} :
    ∀ p ∈ paragraphsOf sep text, p ≠ [] := by
  intro p hp hnil
  have hf := List.of_mem_filter hp
  rw [hnil] at hf
  simp at hf

theorem paragraphsOf_stripped {sep text : List Char} :
    ∀ p ∈ paragraphsOf sep text, ∃ q, p = stripChars q := by
  intro p hp
  have hm := List.mem_of_mem_filter hp
  rcases List.mem_map.mp hm with ⟨q, _, rfl⟩
  exact ⟨q, rfl⟩

theorem processParas_size_zero {docId : String} {o : Int} {sep : List Char} :
    ∀ (paras : List (List Char)), (∀ p ∈ paras, p ≠ []) →
      ∀ (idx : Nat), ∀ ch ∈ processParas docId 0 o sep paras [] idx, ch.content = [] := by
  intro paras
  induction paras with
  | nil =>
    intro _ idx ch hch
    rw [processParas_nil] at hch
    simp [stripChars] at hch
  | cons para rest ih =>
    intro hne idx ch hch
    have hplen : para.length ≠ 0 := by
      intro h0
      exact hne para (List.mem_cons_self _ _) (List.length_eq_zero.mp h0)
    have hO : (para.length : Int) > 0 := by omega
    rw [processParas_cons, stepPara_eq,
      stepAResult_neg (by simp : ¬(([] : List Char) ≠ [] ∧
        ((([] : List Char).length : Int) + (para.length : Int) + (sep.length : Int) > 0))),
      handlePara_pos hO] at hch
    dsimp only at hch
    rw [if_pos (rfl : ([] : List Char) = [])] at hch
    simp only [List.nil_append, List.length_nil, Nat.add_zero] at hch
    rcases List.mem_append.mp hch with hch | hch
    · rcases List.mem_map.mp hch with ⟨p, _, rfl⟩
      show stripChars (pySlice para p.2 (p.2 + 0)) = []
      rw [add_zero, pySlice_self]
      rfl
    · exact ih (fun p hp => hne p (List.mem_cons_of_mem _ hp)) _ ch hch

/-- C6 (counterexample): `chunk_text` performs no validation of
`chunk_size`.  With `chunk_size = 0` (non-positive) it does not fail fast
with a configuration error: it returns a chunk sequence — here four chunks,
one per character of the two paragraphs, all with empty content (the source
function has no raise path; the windowing step is `chunk_size - clamped_overlap >= 1`
even for non-positive sizes, so not even `range` can fail). -/
theorem c6_no_validation_counterexample :
    (chunk_text "ab\n\ncd".data "d" 0 0 "\n\n".data).map
        (fun c => (c.content, c.chunk_index)) =
      [([], 0), ([], 1), ([], 2), ([], 3)] := by decide

/-- C6 (amended): `chunk_text` never raises a configuration error for a
non-positive `chunk_size`; it silently returns a chunk list.  With
`chunk_size = 0` every nonempty paragraph is routed through the
character-level windowing (any nonempty paragraph exceeds a zero budget) and
every returned chunk has empty content. -/
theorem c6_size_zero_all_chunks_empty (text : List Char) (docId : String)
    (ovl : Int) (sep : List Char) :
    ∀ ch ∈ chunk_text text docId 0 ovl sep, ch.content = [] := by
  intro ch hch
  unfold chunk_text at hch
  by_cases h : (stripChars text).isEmpty
  · rw [if_pos h] at hch
    simp at hch
  · rw [if_neg h] at hch
    exact processParas_size_zero (paragraphsOf sep text) paragraphsOf_ne_nil 0 ch hch

/-- Witness for C6 (amended) at a concrete input. -/
theorem c6_size_zero_all_chunks_empty_witness :
    ((chunk_text "x".data "d" 0 7 "\n\n".data).getD 0 dummyChunk).content = [] :=
  c6_size_zero_all_chunks_empty "x".data "d" 7 "\n\n".data
    ((chunk_text "x".data "d" 0 7 "\n\n".data).getD 0 dummyChunk) (by decide)

/-! ### Overlap seeding at finalize (claim C5) -/

/-- C5 (counterexample): finalizing the accumulator `"abc"` (length 3) with
`chunk_overlap = 3` seeds the next accumulator with `""`, not with the whole
content, because the source guard is strictly `len(current) > chunk_overlap`;
end to end, `"abc\n\nde\n\nfg"` with `chunk_size=5, chunk_overlap=3` yields
chunks `"abc"`, `"de"`, `"fg"` with no text carried across the boundary. -/
theorem c5_equal_length_seeds_empty :
    (stepAResult "d" 5 3 "\n\n".data "de".data "abc".data 0).2.1 = [] ∧
      "abc".data.length = 3 ∧
      "abc".data.drop ("abc".data.length - 3) = "abc".data ∧
      (chunk_text "abc\n\nde\n\nfg".data "d" 5 3 "\n\n".data).map (fun c => c.content) =
        ["abc".data, "de".data, "fg".data] := by decide

/-- C5 (amended): whenever `chunk_text` finalizes the accumulator because
appending the next paragraph plus one separator would exceed `chunk_size`,
the next accumulator is seeded with exactly the trailing `chunk_overlap`
characters of the finalized content only when that content is strictly
longer than `chunk_overlap`; it is seeded empty whenever the content length
is at most `chunk_overlap` (equality included) or the overlap is
non-positive. -/
theorem c5_overlap_seeding (docId : String) (size ovl : Int) (sep para current : List Char)
    (idx : Nat) (hne : current ≠ [])
    (hex : (current.length : Int) + (para.length : Int) + (sep.length : Int) > size) :
    (stepAResult docId size ovl sep para current idx).1 = [finalizeContent docId idx current] ∧
      ((0 < ovl ∧ ovl < (current.length : Int)) →
        (stepAResult docId size ovl sep para current idx).2.1 =
            current.drop (current.length - ovl.toNat) ∧
          (stepAResult docId size ovl sep para current idx).2.1.length = ovl.toNat) ∧
      ((ovl ≤ 0 ∨ (current.length : Int) ≤ ovl) →
        (stepAResult docId size ovl sep para current idx).2.1 = []) := by
  rw [stepAResult_pos ⟨hne, hex⟩]
  refine ⟨rfl, ?_, ?_⟩
  · intro hcond
    show (if 0 < ovl ∧ ovl < (current.length : Int) then pySliceFrom current (-ovl) else []) =
        current.drop (current.length - ovl.toNat) ∧
      (if 0 < ovl ∧ ovl < (current.length : Int) then pySliceFrom current (-ovl) else []).length =
        ovl.toNat
    rw [if_pos hcond]
    exact pySliceFrom_neg hcond.1 hcond.2
  · intro hcond
    show (if 0 < ovl ∧ ovl < (current.length : Int) then pySliceFrom current (-ovl) else []) = []
    rw [if_neg (by omega : ¬(0 < ovl ∧ ovl < (current.length : Int)))]

/-- Witness for C5 (amended) at a concrete input. -/
theorem c5_overlap_seeding_witness :
    (stepAResult "d" 5 3 "\n\n".data "de".data "abcd".data 0).2.1 =
        "abcd".data.drop ("abcd".data.length - (3 : Int).toNat) ∧
      (stepAResult "d" 5 3 "\n\n".data "de".data "abcd".data 0).2.1.length = (3 : Int).toNat :=
  (c5_overlap_seeding "d" 5 3 "\n\n".data "de".data "abcd".data 0 (by decide)
    (by decide)).2.1 (by decide)

/-! ### Empty chunks (claim C3) -/

theorem endsNonWS_append_or_para {sep para : List Char} (cur2 : List Char)
    (hplast : ∃ c, para.getLast? = some c ∧ isWS c = false) :
    (if cur2 = [] then para else cur2 ++ sep ++ para) = [] ∨
      ∃ c, (if cur2 = [] then para else cur2 ++ sep ++ para).getLast? = some c ∧
        isWS c = false := by
  right
  obtain ⟨c, hc, hw⟩ := hplast
  have hpne : para ≠ [] := by
    intro h
    rw [h] at hc
    simp at hc
  split
  · exact ⟨c, hc, hw⟩
  · refine ⟨c, ?_, hw⟩
    rw [List.getLast?_append_of_ne_nil _ hpne]
    exact hc

theorem processParas_all_nonempty {docId : String} {size ovl : Int} {sep : List Char} :
    ∀ (paras : List (List Char)),
      (∀ p ∈ paras, p ≠ [] ∧ (∃ q, p = stripChars q) ∧ (p.length : Int) ≤ size) →
      ∀ (current : List Char) (idx : Nat),
        (current = [] ∨ ∃ c, current.getLast? = some c ∧ isWS c = false) →
        ∀ ch ∈ processParas docId size ovl sep paras current idx,
          stripChars ch.content ≠ [] := by
  intro paras
  induction paras with
  | nil =>
    intro _ current idx _ ch hch
    rw [processParas_nil] at hch
    split at hch
    · simp at hch
    · rename_i hguard
      rcases List.mem_singleton.mp hch with rfl
      show stripChars (stripChars current) ≠ []
      have h1 : stripChars current ≠ [] := by
        intro hn
        rw [hn] at hguard
        simp at hguard
      obtain ⟨d, hd, hwd⟩ := stripChars_getLast_not_ws h1
      exact stripChars_ne_nil_of_getLast hd hwd
  | cons para rest ih =>
    intro hpp current idx hinv ch hch
    obtain ⟨hpne, ⟨q, hpq⟩, hple⟩ := hpp para (List.mem_cons_self _ _)
    have hrest := fun p hp => hpp p (List.mem_cons_of_mem _ hp)
    have hO : ¬((para.length : Int) > size) := by omega
    have hplast : ∃ c, para.getLast? = some c ∧ isWS c = false := by
      rw [hpq]
      exact stripChars_getLast_not_ws (by rw [← hpq]; exact hpne)
    rw [processParas_cons, stepPara_eq] at hch
    by_cases hA : current ≠ [] ∧
        ((current.length : Int) + (para.length : Int) + (sep.length : Int) > size)
    · rw [stepAResult_pos hA, handlePara_neg hO] at hch
      dsimp only at hch
      rcases List.mem_append.mp hch with hch1 | hch1
      · have hsingle : ch = finalizeContent docId idx current := by simpa using hch1
        rcases hsingle with rfl
        show stripChars (stripChars current) ≠ []
        have hcurlast : ∃ c, current.getLast? = some c ∧ isWS c = false := by
          rcases hinv with h | h
          · exact absurd h hA.1
          · exact h
        obtain ⟨c, hc, hw⟩ := hcurlast
        have h1 := stripChars_ne_nil_of_getLast hc hw
        obtain ⟨d, hd, hwd⟩ := stripChars_getLast_not_ws h1
        exact stripChars_ne_nil_of_getLast hd hwd
      · exact ih hrest _ _ (endsNonWS_append_or_para _ hplast) ch hch1
    · rw [stepAResult_neg hA, handlePara_neg hO] at hch
      dsimp only at hch
      simp only [List.nil_append] at hch
      exact ih hrest _ _ (endsNonWS_append_or_para _ hplast) ch hch

/-- C3 (counterexample): the text `"ab      cd"` (one paragraph, an interior
run of six spaces) with `chunk_size = 3`, `chunk_overlap = 0` makes the
character-level windowing emit a window lying entirely inside the whitespace
run; its trimmed content is the empty string, refuting "chunk_text never
emits a chunk whose trimmed content is empty". -/
theorem c3_empty_window_chunk :
    (chunk_text "ab      cd".data "doc" 3 0 "\n\n".data).map (fun c => c.content.isEmpty) =
        [false, true, false, false] ∧
      ¬(∀ ch ∈ chunk_text "ab      cd".data "doc" 3 0 "\n\n".data,
          stripChars ch.content ≠ []) := by
  constructor
  · decide
  · decide

/-- C3 (amended): provided no paragraph (after splitting on the separator
and trimming) is longer than `chunk_size` — so the character-level windowing
of an oversized paragraph is never used — `chunk_text` never emits a chunk
whose trimmed content is the empty string; the windowing path can emit such
chunks (see the counterexample). -/
theorem c3_chunks_nonempty_when_paragraphs_fit (text : List Char) (docId : String)
    (size ovl : Int) (sep : List Char)
    (hfit : ∀ p ∈ paragraphsOf sep text, (p.length : Int) ≤ size) :
    ∀ ch ∈ chunk_text text docId size ovl sep,
      stripChars ch.content ≠ [] ∧ ch.content ≠ [] := by
  intro ch hch
  unfold chunk_text at hch
  by_cases h : (stripChars text).isEmpty
  · rw [if_pos h] at hch
    simp at hch
  · rw [if_neg h] at hch
    have hstrip := processParas_all_nonempty (paragraphsOf sep text)
      (fun p hp => ⟨paragraphsOf_ne_nil p hp, paragraphsOf_stripped p hp, hfit p hp⟩)
      [] 0 (Or.inl rfl) ch hch
    refine ⟨hstrip, ?_⟩
    intro hn
    apply hstrip
    rw [hn]
    rfl

/-- Witness for C3 (amended) at a concrete input. -/
theorem c3_chunks_nonempty_witness :
    stripChars ((chunk_text "a\n\nb".data "t" 3 0 "\n\n".data).getD 0 dummyChunk).content ≠ [] ∧
      ((chunk_text "a\n\nb".data "t" 3 0 "\n\n".data).getD 0 dummyChunk).content ≠ [] :=
  c3_chunks_nonempty_when_paragraphs_fit "a\n\nb".data "t" 3 0 "\n\n".data (by decide)
    ((chunk_text "a\n\nb".data "t" 3 0 "\n\n".data).getD 0 dummyChunk) (by decide)

/-! ### Oversized-paragraph handling (claim C4) -/

set_option maxRecDepth 40000 in
/-- C4: an oversized paragraph (`len(para) > chunk_size`) first flushes any
non-empty accumulator as its own chunk and clears the accumulator (also
through a full loop iteration: the accumulator coming out of the iteration
is empty, so no overlap is carried into the oversized-paragraph handling);
the paragraph is then split into one chunk per window `para[i : i + chunk_size]`
whose start offsets advance by `chunk_size - chunk_overlap` per step
(the k-th window starts at `k * (chunk_size - chunk_overlap)`).
Concretely, 500 repeated characters with `chunk_size=100, chunk_overlap=20`
yield 7 >= 5 chunks, each at most 100 characters, consecutive chunks sharing
a 20-character overlap. -/
theorem c4_oversized_paragraph_windowing (docId : String) (size ovl : Int)
    (sep para current : List Char) (idx : Nat)
    (hO : (para.length : Int) > size) (_hstep : 1 ≤ size - ovl) :
    (stepPara docId size ovl sep para current idx).2.1 = [] ∧
      (handlePara docId size ovl sep para current idx).1 =
        (if current = [] then [] else [finalizeContent docId idx current]) ++
          (rangeStep 0 (para.length : Int) (size - ovl)).enum.map
            (fun p => finalizeContent docId
              ((idx + (if current = [] then ([] : List Chunk)
                else [finalizeContent docId idx current]).length) + p.1)
              (pySlice para p.2 (p.2 + size))) ∧
      (handlePara docId size ovl sep para current idx).2.1 = [] ∧
      (∀ k, k < (rangeStep 0 (para.length : Int) (size - ovl)).length →
        (rangeStep 0 (para.length : Int) (size - ovl)).getD k 0 = k * (size - ovl)) ∧
      (chunk_text (List.replicate 500 'a') "doc" 100 20 "\n\n".data).length = 7 ∧
      5 ≤ (chunk_text (List.replicate 500 'a') "doc" 100 20 "\n\n".data).length ∧
      (∀ ch ∈ chunk_text (List.replicate 500 'a') "doc" 100 20 "\n\n".data,
        ch.content.length ≤ 100) ∧
      (∀ k, k < 6 →
        ((chunk_text (List.replicate 500 'a') "doc" 100 20 "\n\n".data).getD (k + 1)
            dummyChunk).content.take 20 =
          ((chunk_text (List.replicate 500 'a') "doc" 100 20 "\n\n".data).getD k
              dummyChunk).content.drop
            (((chunk_text (List.replicate 500 'a') "doc" 100 20 "\n\n".data).getD k
              dummyChunk).content.length - 20)) := by
  refine ⟨?_, ?_, ?_, ?_, by decide, by decide, by decide, by decide⟩
  · show (handlePara docId size ovl sep para
        (stepAResult docId size ovl sep para current idx).2.1
        (stepAResult docId size ovl sep para current idx).2.2).2.1 = []
    rw [handlePara_pos hO]
  · rw [handlePara_pos hO]
  · rw [handlePara_pos hO]
  · intro k hk
    unfold rangeStep at hk ⊢
    have h := rangeStepGo_getD hk
    rw [h]
    ring

/-- Witness for C4 at a concrete input. -/
theorem c4_oversized_paragraph_windowing_witness :
    (stepPara "w" 3 1 "\n\n".data "abcdefg".data "xy".data 0).2.1 = [] :=
  (c4_oversized_paragraph_windowing "w" 3 1 "\n\n".data "abcdefg".data "xy".data 0
    (by decide) (by decide)).1

/-! ### Pipeline short-circuit on empty extracted text (claim C8) -/

/-- C8: for every document whose extracted text is empty after trimming,
`process_document` — both the baseline and the enhanced pipeline —
short-circuits: it returns `chunks = 0` and `indexed = 0` (the enhanced
result still carrying the extracted metadata, and neither carrying a
`text_length`), and the embedding and indexing collaborators are never
called (the call trace is empty). -/
theorem c8_empty_text_short_circuit {V W : Type} (cu : CUDict) (docId : String)
    (size ovl : Int) (embedF : List (List Char) → List V)
    (indexF : List Chunk → List V → List Bool)
    (embedF2 : List (List Char) → List W)
    (indexF2 : List Chunk → List W → List (String × String) → List Bool)
    (h : (stripChars (extractedText cu)).isEmpty = true) :
    baselineProcess cu docId size ovl embedF indexF = (⟨docId, 0, 0, none⟩, []) ∧
      enhancedProcess cu docId size ovl embedF2 indexF2 =
        (⟨docId, 0, 0, none, extractFields cu⟩, []) := by
  constructor
  · show (if (stripChars (extractedText cu)).isEmpty then _ else _) = _
    rw [if_pos h]
  · show (if (stripChars (extractedText cu)).isEmpty then _ else _) = _
    rw [if_pos h]

/-- Witness for C8 at a concrete input (an extraction result with no
contents). -/
theorem c8_empty_text_short_circuit_witness :
    baselineProcess (CUDict.mk []) "d" 1000 200 (fun _ => ([] : List Int))
        (fun _ _ => []) = (⟨"d", 0, 0, none⟩, []) ∧
      enhancedProcess (CUDict.mk []) "d" 1000 200 (fun _ => ([] : List Int))
        (fun _ _ _ => []) = (⟨"d", 0, 0, none, extractFields (CUDict.mk [])⟩, []) :=
  c8_empty_text_short_circuit (CUDict.mk []) "d" 1000 200 (fun _ => ([] : List Int))
    (fun _ _ => []) (fun _ => ([] : List Int)) (fun _ _ _ => []) (by decide)

/-! ### Chat short-circuit on zero retrieval results (claim C9) -/

/-- C9: for every query on which retrieval returns zero results, `chat`
returns the fixed not-found message with an empty citations list (and no
metadata key), and the completion collaborator is never called (the call
trace stops after embed and search). -/
theorem c9_no_results_short_circuit {V : Type} (embedS : String → V)
    (searchF : String → String → V → Int → List SearchRecord)
    (completeF : String → String → Option String)
    (message index_name system_prompt : String) (top_k : Int)
    (h : searchF index_name message (embedS message) top_k = []) :
    chat embedS searchF completeF message index_name system_prompt top_k =
        (⟨NOT_FOUND_MESSAGE, [], none⟩, [ChatCall.embedQ, ChatCall.searchQ]) ∧
      ChatCall.completeQ ∉
        (chat embedS searchF completeF message index_name system_prompt top_k).2 := by
  have hres : (searchF index_name message (embedS message) top_k).isEmpty = true := by
    rw [h]
    rfl
  have heq : chat embedS searchF completeF message index_name system_prompt top_k =
      (⟨NOT_FOUND_MESSAGE, [], none⟩, [ChatCall.embedQ, ChatCall.searchQ]) := by
    show (if (searchF index_name message (embedS message) top_k).isEmpty then _ else _) = _
    rw [if_pos hres]
  refine ⟨heq, ?_⟩
  rw [heq]
  decide

/-- Witness for C9 at a concrete input. -/
theorem c9_no_results_short_circuit_witness :
    chat (fun _ => (0 : Int)) (fun _ _ _ _ => []) (fun _ _ => none) "q" "idx"
        SYSTEM_PROMPT_BASELINE 5 =
        (⟨NOT_FOUND_MESSAGE, [], none⟩, [ChatCall.embedQ, ChatCall.searchQ]) ∧
      ChatCall.completeQ ∉
        (chat (fun _ => (0 : Int)) (fun _ _ _ _ => []) (fun _ _ => none) "q" "idx"
          SYSTEM_PROMPT_BASELINE 5).2 :=
  c9_no_results_short_circuit (fun _ => (0 : Int)) (fun _ _ _ _ => []) (fun _ _ => none)
    "q" "idx" SYSTEM_PROMPT_BASELINE 5 rfl

/-! ### Metadata aggregation (claim C10) -/

theorem dedupNEfold_cons (acc : List String) (a : String) (l : List String) :
    dedupNEfold acc (a :: l) = dedupNEfold (dedupStep acc a) l := rfl

theorem dedupNEfold_append (acc : List String) (l1 l2 : List String) :
    dedupNEfold acc (l1 ++ l2) = dedupNEfold (dedupNEfold acc l1) l2 :=
  List.foldl_append _ _ _ _

theorem mem_dedupNEfold {x : String} :
    ∀ (l acc : List String), x ∈ dedupNEfold acc l ↔ x ∈ acc ∨ (x ∈ l ∧ x ≠ "") := by
  intro l
  induction l with
  | nil => intro acc; simp [dedupNEfold]
  | cons a l ih =>
    intro acc
    rw [dedupNEfold_cons, ih]
    unfold dedupStep
    split
    · rename_i hc
      rw [List.mem_append, List.mem_singleton]
      constructor
      · rintro ((hx | rfl) | ⟨hxl, hne⟩)
        · exact Or.inl hx
        · exact Or.inr ⟨List.mem_cons_self _ _, hc.1⟩
        · exact Or.inr ⟨List.mem_cons_of_mem _ hxl, hne⟩
      · rintro (hx | ⟨hxm, hne⟩)
        · exact Or.inl (Or.inl hx)
        · rcases List.mem_cons.mp hxm with rfl | hxl
          · exact Or.inl (Or.inr rfl)
          · exact Or.inr ⟨hxl, hne⟩
    · rename_i hc
      constructor
      · rintro (hx | ⟨hxl, hne⟩)
        · exact Or.inl hx
        · exact Or.inr ⟨List.mem_cons_of_mem _ hxl, hne⟩
      · rintro (hx | ⟨hxm, hne⟩)
        · exact Or.inl hx
        · rcases List.mem_cons.mp hxm with rfl | hxl
          · left
            by_contra hxacc
            exact hc ⟨hne, hxacc⟩
          · exact Or.inr ⟨hxl, hne⟩

theorem nodup_dedupNEfold :
    ∀ (l acc : List String), acc.Nodup → (dedupNEfold acc l).Nodup := by
  intro l
  induction l with
  | nil => intro acc h; exact h
  | cons a l ih =>
    intro acc h
    rw [dedupNEfold_cons]
    apply ih
    unfold dedupStep
    split
    · rename_i hc
      rw [List.nodup_append]
      refine ⟨h, List.nodup_singleton _, ?_⟩
      intro x hx hxs
      rcases List.mem_singleton.mp hxs with rfl
      exact hc.2 hx
    · exact h

theorem dedupNEfold_sublist :
    ∀ (l acc : List String), ∃ t, dedupNEfold acc l = acc ++ t ∧ t.Sublist l := by
  intro l
  induction l with
  | nil =>
    intro acc
    exact ⟨[], by simp [dedupNEfold], List.Sublist.refl []⟩
  | cons a l ih =>
    intro acc
    rw [dedupNEfold_cons]
    unfold dedupStep
    split
    · obtain ⟨t, ht, hs⟩ := ih (acc ++ [a])
      refine ⟨a :: t, ?_, List.Sublist.cons₂ a hs⟩
      rw [ht, List.append_assoc]
      rfl
    · obtain ⟨t, ht, hs⟩ := ih acc
      exact ⟨t, ht, List.Sublist.cons a hs⟩

theorem foldl_aggStep_agencies (cs : List Citation) :
    ∀ st : AggState, (cs.foldl aggStep st).all_agencies =
      dedupNEfold st.all_agencies ((cs.map (fun c => c.agencies)).flatten) := by
  induction cs with
  | nil => intro st; rfl
  | cons c cs ih =>
    intro st
    rw [List.foldl_cons, ih, List.map_cons, List.flatten_cons, dedupNEfold_append]
    rfl

theorem foldl_aggStep_topics (cs : List Citation) :
    ∀ st : AggState, (cs.foldl aggStep st).all_topics =
      dedupNEfold st.all_topics (cs.map (fun c => c.topic_category)) := by
  induction cs with
  | nil => intro st; rfl
  | cons c cs ih =>
    intro st
    rw [List.foldl_cons, ih, List.map_cons, dedupNEfold_cons]
    rfl

theorem foldl_aggStep_seen (cs : List Citation) :
    ∀ st : AggState, (cs.foldl aggStep st).seen_reports =
      dedupNEfold st.seen_reports (cs.map (fun c => c.report_number)) := by
  induction cs with
  | nil => intro st; rfl
  | cons c cs ih =>
    intro st
    rw [List.foldl_cons, ih, List.map_cons, dedupNEfold_cons]
    rfl

theorem foldl_aggStep_reports_numbers (cs : List Citation) :
    ∀ st : AggState, st.seen_reports = st.reports.map (fun r => r.number) →
      (cs.foldl aggStep st).seen_reports =
        (cs.foldl aggStep st).reports.map (fun r => r.number) := by
  induction cs with
  | nil => intro st h; exact h
  | cons c cs ih =>
    intro st h
    rw [List.foldl_cons]
    apply ih
    show dedupStep st.seen_reports c.report_number =
      (if c.report_number ≠ "" ∧ c.report_number ∉ st.seen_reports then
        st.reports ++ [⟨c.report_title, c.report_number⟩]
      else st.reports).map (fun r => r.number)
    unfold dedupStep
    split
    · rw [List.map_append, ← h]
      rfl
    · exact h

theorem foldl_aggStep_summary (cs : List Citation) :
    ∀ st : AggState, (cs.foldl aggStep st).has_summary =
      (st.has_summary || cs.any (fun c => c.executive_summary != "")) := by
  induction cs with
  | nil => intro st; simp
  | cons c cs ih =>
    intro st
    rw [List.foldl_cons, ih, List.any_cons]
    show ((st.has_summary || (c.executive_summary != "")) ||
        cs.any (fun c => c.executive_summary != "")) =
      (st.has_summary || ((c.executive_summary != "") ||
        cs.any (fun c => c.executive_summary != "")))
    rw [Bool.or_assoc]

/-- C10: for every chat call with at least one retrieval result — with any
system prompt, hence for the baseline variant (`chat_baseline`) exactly as
for the enhanced one (`chat_enhanced`), both being `chat` at their fixed
prompts — the returned dict carries a metadata mapping whose `agencies` are
the non-empty agency names deduplicated in first-occurrence order (computed
by the source's dedup-append fold, without duplicates, and a sublist of the
flattened citation agency lists), whose `topics` are likewise deduplicated,
whose `reports` are keyed by report number without duplicate numbers (the
numbers being the deduplicated non-empty citation report numbers), and whose
`has_executive_summary` flag is set iff some citation carries a non-empty
executive summary. -/
theorem c10_metadata_on_both_variants {V : Type} (embedS : String → V)
    (searchF : String → String → V → Int → List SearchRecord)
    (completeF : String → String → Option String)
    (message index_name system_prompt : String) (top_k : Int)
    (h : searchF index_name message (embedS message) top_k ≠ []) :
    (chat embedS searchF completeF message index_name system_prompt top_k).1.metadata =
        some (aggMetadata
          ((searchF index_name message (embedS message) top_k).map mkCitation)) ∧
      (∀ cits : List Citation,
        (aggMetadata cits).agencies =
            dedupNEfold [] ((cits.map (fun c => c.agencies)).flatten) ∧
          (aggMetadata cits).agencies.Nodup ∧
          (∀ a, a ∈ (aggMetadata cits).agencies ↔
            a ∈ (cits.map (fun c => c.agencies)).flatten ∧ a ≠ "") ∧
          (aggMetadata cits).agencies.Sublist ((cits.map (fun c => c.agencies)).flatten) ∧
          (aggMetadata cits).topics = dedupNEfold [] (cits.map (fun c => c.topic_category)) ∧
          (aggMetadata cits).topics.Nodup ∧
          ((aggMetadata cits).reports.map (fun r => r.number)) =
            dedupNEfold [] (cits.map (fun c => c.report_number)) ∧
          ((aggMetadata cits).reports.map (fun r => r.number)).Nodup ∧
          (aggMetadata cits).has_executive_summary =
            cits.any (fun c => c.executive_summary != "")) ∧
      chat_baseline embedS searchF completeF message index_name =
        chat embedS searchF completeF message index_name SYSTEM_PROMPT_BASELINE 5 ∧
      chat_enhanced embedS searchF completeF message index_name =
        chat embedS searchF completeF message index_name SYSTEM_PROMPT_ENHANCED 5 := by
  refine ⟨?_, ?_, rfl, rfl⟩
  · have hres : ¬((searchF index_name message (embedS message) top_k).isEmpty = true) := by
      rw [List.isEmpty_iff]
      exact h
    simp only [chat]
    rw [if_neg hres]
  · intro cits
    have hag := foldl_aggStep_agencies cits ⟨[], [], [], [], false⟩
    have htp := foldl_aggStep_topics cits ⟨[], [], [], [], false⟩
    have hsn := foldl_aggStep_seen cits ⟨[], [], [], [], false⟩
    have hrn := foldl_aggStep_reports_numbers cits ⟨[], [], [], [], false⟩ rfl
    have hsm := foldl_aggStep_summary cits ⟨[], [], [], [], false⟩
    have hagm : (aggMetadata cits).agencies =
        dedupNEfold [] ((cits.map (fun c => c.agencies)).flatten) := hag
    have htpm : (aggMetadata cits).topics =
        dedupNEfold [] (cits.map (fun c => c.topic_category)) := htp
    have hrnm : (aggMetadata cits).reports.map (fun r => r.number) =
        dedupNEfold [] (cits.map (fun c => c.report_number)) := by
      show (cits.foldl aggStep ⟨[], [], [], [], false⟩).reports.map (fun r => r.number) = _
      rw [← hrn]
      exact hsn
    refine ⟨hagm, ?_, ?_, ?_, htpm, ?_, hrnm, ?_, ?_⟩
    · rw [hagm]
      exact nodup_dedupNEfold _ [] List.nodup_nil
    · intro a
      rw [hagm, mem_dedupNEfold]
      simp
    · rw [hagm]
      obtain ⟨t, ht, hs⟩ := dedupNEfold_sublist ((cits.map (fun c => c.agencies)).flatten) []
      rw [ht, List.nil_append]
      exact hs
    · rw [htpm]
      exact nodup_dedupNEfold _ [] List.nodup_nil
    · rw [hrnm]
      exact nodup_dedupNEfold _ [] List.nodup_nil
    · exact hsm.trans (Bool.false_or _)

/-- Witness for C10 at a concrete input (a single retrieval result with two
agencies, one of them repeated). -/
theorem c10_metadata_on_both_variants_witness :
    (chat (fun _ => (0 : Int))
        (fun _ _ _ _ => [⟨some "c0", some "text", some "docA", some 1, some "T",
          some "GAO-1", some "cyber", some ["DoD", "DoD", "CISA"], some "sum",
          some [], some []⟩])
        (fun _ _ => some "answer") "q" "idx" SYSTEM_PROMPT_BASELINE 5).1.metadata =
      some (aggMetadata
        (((fun (_ : String) (_ : String) (_ : Int) (_ : Int) =>
            [(⟨some "c0", some "text", some "docA", some 1, some "T",
              some "GAO-1", some "cyber", some ["DoD", "DoD", "CISA"], some "sum",
              some [], some []⟩ : SearchRecord)]) "idx" "q" ((fun _ => (0 : Int)) "q") 5).map
          mkCitation)) :=
  (c10_metadata_on_both_variants (fun _ => (0 : Int))
    (fun _ _ _ _ => [⟨some "c0", some "text", some "docA", some 1, some "T",
      some "GAO-1", some "cyber", some ["DoD", "DoD", "CISA"], some "sum",
      some [], some []⟩])
    (fun _ _ => some "answer") "q" "idx" SYSTEM_PROMPT_BASELINE 5 (by decide)).1
